import Mathlib

/-!
Verification development for the RWMS RimWorld mod sorter
(`rwms_sort.py`).  Python strings are modelled as `List Char`; Python
dictionaries are modelled either as association lists (where insertion
behaviour matters) or by their lookup function (where only lookups
matter).  Floating-point category scores are modelled as rationals:
the scores come from a JSON table and are only compared, never
computed with.  All recursive string functions take explicit fuel
(always called with enough fuel, namely the string length), so that
every definition reduces in the kernel.
-/

/-- Chars of a string literal; Python strings are modelled as `List Char`. -/
def pc (s : String) : List Char := s.data

/-- The whitespace test used by Python `str.split()` / `str.strip()`
(restricted to the ASCII whitespace characters, the only ones that occur
in mod names handled by the program). -/
def py_is_space (c : Char) : Bool :=
  c = ' ' || c = '\t' || c = '\n' || c = '\r' || c = '\x0b' || c = '\x0c'

/-- Fuel-driven core of Python `str.replace`: replaces non-overlapping
occurrences of `sub` left to right.  `fuel ≥` length of the string makes it
total; the program never calls `replace` with an empty needle. -/
def py_replace_go (sub repl : List Char) : Nat → List Char → List Char
  | 0, s => s
  | _ + 1, [] => []
  | fuel + 1, c :: rest =>
    if sub.isPrefixOf (c :: rest) && !sub.isEmpty then
      repl ++ py_replace_go sub repl fuel (List.drop (sub.length - 1) rest)
    else
      c :: py_replace_go sub repl fuel rest

/-- Python `s.replace(sub, repl)` (all non-overlapping occurrences,
scanned left to right). -/
def py_replace (s sub repl : List Char) : List Char :=
  py_replace_go sub repl s.length s

/-- Python `s.find(sub)`: index of the first occurrence, `-1` if absent. -/
def py_find_go (sub : List Char) : List Char → Nat → Int
  | s, i =>
    if sub.isPrefixOf s then (i : Int)
    else
      match s with
      | [] => -1
      | _ :: t => py_find_go sub t (i + 1)

/-- Python `s.find(sub)`. -/
def py_find (s sub : List Char) : Int :=
  py_find_go sub s 0

/-- Python `s.startswith(sub)`. -/
def py_startswith (s sub : List Char) : Bool :=
  sub.isPrefixOf s

/-- Python `s.endswith(sub)`. -/
def py_endswith (s sub : List Char) : Bool :=
  sub.isSuffixOf s

/-- Python `s.strip()`: remove leading and trailing whitespace. -/
def py_strip (s : List Char) : List Char :=
  ((s.dropWhile py_is_space).reverse.dropWhile py_is_space).reverse

/-- Fuel-driven core of Python `str.split()` (split on whitespace runs,
no empty words). -/
def py_split_go : Nat → List Char → List (List Char)
  | 0, _ => []
  | _ + 1, [] => []
  | fuel + 1, c :: t =>
    if py_is_space c then py_split_go fuel t
    else
      (c :: t.takeWhile (fun d => !py_is_space d)) ::
        py_split_go fuel (t.dropWhile (fun d => !py_is_space d))

/-- Python `s.split()`. -/
def py_split (s : List Char) : List (List Char) :=
  py_split_go s.length s

/-- Python `" ".join(words)`. -/
def py_join_space : List (List Char) → List Char
  | [] => []
  | [w] => w
  | w :: ws => w ++ ' ' :: py_join_space ws

/-!
Embedding of the regular expression of `cleanup_garbage_name`
(`rwms_sort.py` lines 123–125):

  `(v|V|)\d+\.\d+(\.\d+|)([a-z]|)|\[(1.0|(A|B)\d+)\]|\((1.0|(A|B)\d+)\)|(for |R|)(1.0|(A|B)\d+)|\.1(8|9)`

Each matcher takes the input from the current position and returns the
rest of the input after the match.  Python's backtracking engine prefers
earlier alternatives; for this particular pattern the greedy submatches
are deterministic (digit runs are always followed by a non-digit
requirement), which the hand-rolled matchers implement directly.
Note that in `1.0` the `.` is the any-character metacharacter.
-/

/-- `\d+` (greedy, at least one digit). -/
def m_digits1 (s : List Char) : Option (List Char) :=
  match s with
  | c :: t => if c.isDigit then some (t.dropWhile Char.isDigit) else none
  | [] => none

/-- `(\.\d+|)` — optionally a dot followed by digits, else match nothing. -/
def m_opt_dot_digits (s : List Char) : List Char :=
  match s with
  | c :: t =>
    if c = '.' then
      match t with
      | d :: u => if d.isDigit then u.dropWhile Char.isDigit else s
      | [] => s
    else s
  | [] => s

/-- `([a-z]|)` — optionally one lowercase ASCII letter. -/
def m_opt_lower (s : List Char) : List Char :=
  match s with
  | c :: t => if c.isLower then t else s
  | [] => s

/-- `\d+\.\d+(\.\d+|)([a-z]|)` — the body of the first alternative. -/
def alt_version_body (s : List Char) : Option (List Char) :=
  match m_digits1 s with
  | none => none
  | some s1 =>
    match s1 with
    | c :: t =>
      if c = '.' then
        match m_digits1 t with
        | none => none
        | some s2 => some (m_opt_lower (m_opt_dot_digits s2))
      else none
    | [] => none

/-- `(v|V|)\d+\.\d+(\.\d+|)([a-z]|)` — first alternative, with the
optional `v`/`V` prefix tried first as Python does. -/
def alt_version (s : List Char) : Option (List Char) :=
  match s with
  | c :: t =>
    if c = 'v' ∨ c = 'V' then
      match alt_version_body t with
      | some u => some u
      | none => alt_version_body s
    else alt_version_body s
  | [] => alt_version_body []

/-- `(1.0|(A|B)\d+)` — shared group of alternatives 2, 3 and 4
(`.` is the any-character metacharacter). -/
def grp_tag (s : List Char) : Option (List Char) :=
  match s with
  | c :: t =>
    if c = '1' then
      match t with
      | _ :: '0' :: u => some u
      | _ => none
    else if c = 'A' ∨ c = 'B' then m_digits1 t
    else none
  | [] => none

/-- `\[(1.0|(A|B)\d+)\]` and `\((1.0|(A|B)\d+)\)` — bracketed tag. -/
def alt_bracket (openc closec : Char) (s : List Char) : Option (List Char) :=
  match s with
  | c :: t =>
    if c = openc then
      match grp_tag t with
      | some (d :: v) => if d = closec then some v else none
      | some [] => none
      | none => none
    else none
  | [] => none

/-- `(for |R|)(1.0|(A|B)\d+)` — fourth alternative, prefixes tried in
Python's preference order `for `, `R`, empty. -/
def alt_for_tag (s : List Char) : Option (List Char) :=
  if (pc "for ").isPrefixOf s then
    match grp_tag (s.drop 4) with
    | some u => some u
    | none => grp_tag s
  else
    match s with
    | c :: t =>
      if c = 'R' then
        match grp_tag t with
        | some u => some u
        | none => grp_tag s
      else grp_tag s
    | [] => grp_tag []

/-- `\.1(8|9)` — fifth alternative. -/
def alt_dot19 (s : List Char) : Option (List Char) :=
  match s with
  | c :: d :: e :: t =>
    if c = '.' ∧ d = '1' ∧ (e = '8' ∨ e = '9') then some t else none
  | _ => none

/-- A match of the whole pattern at the current position (alternatives
tried in order, as Python's engine does). -/
def match_garbage (s : List Char) : Option (List Char) :=
  match alt_version s with
  | some u => some u
  | none =>
    match alt_bracket '[' ']' s with
    | some u => some u
    | none =>
      match alt_bracket '(' ')' s with
      | some u => some u
      | none =>
        match alt_for_tag s with
        | some u => some u
        | none => alt_dot19 s

/-- Fuel-driven scan of `re.sub(regex, "", s)`: at each position, if the
pattern matches, drop the matched text, else keep the character.  All
matches of this pattern are non-empty; the length guard only serves
totality. -/
def regex_sub_go : Nat → List Char → List Char
  | 0, s => s
  | _ + 1, [] => []
  | fuel + 1, c :: rest =>
    match match_garbage (c :: rest) with
    | some remaining =>
      if remaining.length < rest.length + 1 then regex_sub_go fuel remaining
      else c :: regex_sub_go fuel rest
    | none => c :: regex_sub_go fuel rest

/-- `re.sub(regex, "", s)` for the garbage-name pattern. -/
def regex_sub (s : List Char) : List Char :=
  regex_sub_go s.length s

/-- Embedding of `cleanup_garbage_name` (`rwms_sort.py` lines 121–161),
step for step: two regex passes, separator rewrites, whitespace
normalisation, empty-bracket artifacts, the fixed table of special
cases (note the source tests `clean.find(x)` for truthiness, which
skips the replacement exactly when `x` occurs at index 0), and final
prefix/suffix trimming. -/
def cleanup_garbage_name (garbage_name : List Char) : List Char :=
  let clean := garbage_name
  let clean := regex_sub clean
  let clean := regex_sub clean
  let clean := py_replace (py_replace clean (pc " - ") (pc ": ")) (pc " : ") (pc ": ")
  let clean := py_replace clean (pc "  ") (pc " ")
  let clean := py_strip (py_join_space (py_split clean))
  let clean := py_replace clean (pc "()") []
  let clean := py_replace clean (pc "[]") []
  let clean := py_replace clean (pc "(v. )") []
  let clean := if py_endswith clean (pc " Ver") then py_replace clean (pc " Ver") [] else clean
  let clean := if py_endswith clean (pc " %") then py_replace clean (pc " %") [] else clean
  let clean := if py_find clean (pc "[ ") ≠ 0 then py_replace clean (pc "[ ") (pc "[") else clean
  let clean := if py_find clean (pc "( & b19)") ≠ 0 then py_replace clean (pc "( & b19)") [] else clean
  let clean := if py_find clean (pc "[19]") ≠ 0 then py_replace clean (pc "[19]") [] else clean
  let clean := if py_find clean (pc "[/] Version") ≠ 0 then py_replace clean (pc "[/] Version") [] else clean
  let clean := if py_endswith clean (pc ":") then clean.dropLast else clean
  let clean := if py_startswith clean (pc ": ") then clean.drop 2 else clean
  let clean := if py_startswith clean (pc "-") then clean.drop 1 else clean
  py_strip clean

/-!
## Data model

`ModRecord` tuples `(mod_id, score, name, mod_source)` from
`load_mod_data` (`rwms_sort.py` lines 215 and 224).  A score of `none`
models Python `None` (unknown mod); scores are rationals standing for
the JSON floats, which the program only compares.
-/

/-- The per-mod tuple `(mod_id, score, name, mod_source)` built by
`load_mod_data`; `source` is the `mod_source` tag, `"W"` or `"L"`. -/
structure ModInfo where
  id : String
  score : Option ℚ
  name : String
  source : String
deriving DecidableEq, Repr

/-!
## Association-list model of Python dicts

Used where insertion behaviour matters: the dict-literal merge
`mod_data_full = {**mod_data_local, **mod_data_workshop}`
(`rwms_sort.py` line 423) and the filesystem for `save_results`.
`dict_insert` overwrites the value in place when the key exists
(Python dict assignment), otherwise appends.
-/

/-- Lookup in an association list (Python `d[k]` / `k in d`). -/
def dict_lookup {κ α : Type} [DecidableEq κ] : List (κ × α) → κ → Option α
  | [], _ => none
  | (k, v) :: t, key => if k = key then some v else dict_lookup t key

/-- Python dict assignment `d[k] = v`: overwrite the existing binding in
place (keys are unique in a dict), else append the new binding. -/
def dict_insert {κ α : Type} [DecidableEq κ] : List (κ × α) → κ → α → List (κ × α)
  | [], k, v => [(k, v)]
  | p :: t, k, v => if p.1 = k then (k, v) :: t else p :: dict_insert t k v

/-- The dict literal `{**a, **b}`: the items of `a`, then the items of
`b` assigned one by one (`rwms_sort.py` line 423). -/
def dict_union {κ α : Type} [DecidableEq κ] (a b : List (κ × α)) : List (κ × α) :=
  b.foldl (fun acc p => dict_insert acc p.1 p.2) a

/-!
## The active-list pipeline (`main`, lines 392–498)

Downstream of `load_mod_data` only dict lookups matter, so the merged
mod dict is modelled by its lookup function `String → Option ModInfo`.
-/

/-- Lines 394–395: append `"Core"` to the enabled list when missing. -/
def with_core (mods_enabled_list : List String) : List String :=
  if "Core" ∈ mods_enabled_list then mods_enabled_list
  else mods_enabled_list ++ ["Core"]

/-- Lookup of `mod_data_known[mods][1]` (lines 424–430 build
`mod_data_known` from the entries of `mod_data_full` whose score is not
`None`; line 436 then reads the score).  The lookup succeeds exactly
when the full dict has an entry with a present score. -/
def known_score (mod_data_full : String → Option ModInfo) (mods : String) : Option ℚ :=
  (mod_data_full mods).bind ModInfo.score

/-- Lines 432–441: one pass over the enabled list, appending
`(mods, score)` to `mods_data_active` when the known-dict lookup
succeeds and `mods` to `mods_unknown_active` on `KeyError`. -/
def reconcile (score_of : String → Option ℚ) (mods_enabled_list : List String) :
    List (String × ℚ) × List String :=
  mods_enabled_list.foldl
    (fun acc mods =>
      match score_of mods with
      | some s => (acc.1 ++ [(mods, s)], acc.2)
      | none => (acc.1, acc.2 ++ [mods]))
    ([], [])

/-- The comparison used by `sorted(mods_data_active, key=itemgetter(1))`:
compare the scores only. -/
def score_le (a b : String × ℚ) : Bool :=
  decide (a.2 ≤ b.2)

/-- Line 445: `new_list = sorted(mods_data_active, key=itemgetter(1))`.
Python's `sorted` is a stable sort by the key, which is exactly
`List.mergeSort` with the score comparison. -/
def new_list (mods_data_active : List (String × ℚ)) : List (String × ℚ) :=
  mods_data_active.mergeSort score_le

/-- Lines 483–488: write the sorted known mods, skipping entries whose
ID is the empty string. -/
def write_known (nl : List (String × ℚ)) : List String :=
  nl.foldl (fun acc mods => if mods.1 = "" then acc else acc ++ [mods.1]) []

/-- Lines 491–498: append the unknown active mods when
`dont_remove_unknown and mods_unknown_active` is truthy, skipping empty
IDs. -/
def write_unknown (dont_remove_unknown : Bool) (mods_unknown_active : List String) :
    List String :=
  if dont_remove_unknown && !mods_unknown_active.isEmpty then
    mods_unknown_active.foldl (fun acc mods => if mods = "" then acc else acc ++ [mods]) []
  else []

/-- The sequence of `<li>` texts written under `activeMods` in the
non-reset path of `main`: lines 392–395 (Core invariant), 432–441
(reconciliation), 445 (sort), 483–498 (write-out). -/
def final_active (mod_data_full : String → Option ModInfo) (dont_remove_unknown : Bool)
    (mods_enabled_list : List String) : List String :=
  let enabled := with_core mods_enabled_list
  let parts := reconcile (known_score mod_data_full) enabled
  write_known (new_list parts.1) ++ write_unknown dont_remove_unknown parts.2

/-- Lines 517–525: the location hint of one unknown-mod entry in the
report (`os.path.join` rendered with `/`).  The real local mods
directory is not an input: the local branch uses a literal placeholder. -/
def mod_loc (disable_steam : Bool) (mod_entry : ModInfo) : String :=
  if mod_entry.source = "L" then
    "<RimWorld install directory>/Mods/" ++ mod_entry.id
  else if disable_steam = false then
    "https://steamcommunity.com/sharedfiles/filedetails/?id=" ++ mod_entry.id
  else ""

/-- Membership of an id in `mod_data_unknown` (lines 424–430): the full
dict has the entry and its score is `None`. -/
def unknown_entry (mod_data_full : String → Option ModInfo) (mods : String) :
    Option ModInfo :=
  match mod_data_full mods with
  | some e => if e.score.isSome then none else some e
  | none => none

/-- A one-known-mod dict mapping `"Core"` to a score-0 record, used for
the spec's concrete examples. -/
def core_only_map : String → Option ModInfo := fun mods =>
  if mods = "Core" then some ⟨"Core", some 0, "Core", "L"⟩ else none

/-!
## `load_mod_data` (lines 172–229)

The filesystem walk is abstracted into a list of discovered mod
folders, each with the outcome of reading `About/About.xml`:
`missing` (no file), `malformed` (XML parse error), or `parsed name?`
(`name?` is the text of the `<name>` tag; `parsed none` models a
well-formed file with no usable name, where `xml.find("name").text`
raises an uncaught exception).  The workshop-page fallback is an
oracle from mod id to either a raised exception or a page title.
-/

/-- Outcome of reading a mod folder's `About/About.xml`. -/
inductive AboutFile
  | missing
  | malformed
  | parsed (name_text : Option String)
deriving DecidableEq, Repr

/-- A discovered mod folder: its name (the mod id) and its descriptor. -/
structure ModFolder where
  id : String
  about : AboutFile
deriving DecidableEq, Repr

/-- Outcome of fetching the Steam workshop page for a mod id:
`fetch_error` models any exception from `urlopen`/parsing
(caught at line 194), `page` a successfully loaded title. -/
inductive FetchResult
  | fetch_error
  | page (title : String)
deriving DecidableEq, Repr

/-- How a run of `load_mod_data` terminates abnormally:
`fatal_exit` models `RWMS.error.fatal_error` followed by
`sys.exit(1)`, `uncaught_exception` an exception no handler catches. -/
inductive RunExit
  | fatal_exit
  | uncaught_exception
deriving DecidableEq, Repr

/-- Python `sub in s`. -/
def str_contains (s sub : String) : Bool :=
  decide (py_find s.data sub.data ≠ -1)

/-- `cleanup_garbage_name` on `String`. -/
def cleanup_str (s : String) : String :=
  ⟨cleanup_garbage_name s.data⟩

/-- Python `s.replace(sub, repl)` on `String`. -/
def py_replace_str (s sub repl : String) : String :=
  ⟨py_replace s.data sub.data repl.data⟩

/-- Lines 178–201: obtain the raw display name of one folder, or skip
it (`none`), or abort the run.  On malformed XML, with a Steam
installation the workshop page is fetched inside a `try` whose bare
`except` (line 194) catches everything raised in its body — including
the `SystemExit` raised by `fatal_error`/`sys.exit(1)` on an error-page
title (lines 192–193) — printing and continuing with the next folder.
So both a fetch exception and an error-page title skip the mod; only a
missing Steam installation is fatal here (lines 199–201 sit outside
any `try`). -/
def resolve_name (steam_detected : Bool) (fetch : String → FetchResult)
    (f : ModFolder) : Except RunExit (Option String) :=
  match f.about with
  | .missing => .ok none
  | .parsed none => .error .uncaught_exception
  | .parsed (some nm) => .ok (some nm)
  | .malformed =>
    if steam_detected then
      match fetch f.id with
      | .fetch_error => .ok none
      | .page title =>
        if str_contains title "Steam Community :: Error" then .ok none
        else .ok (some (py_replace_str title "Steam Workshop :: " ""))
    else .error .fatal_exit

/-- Lines 204–224: normalise the name, look it up in the database, and
build the record; a name whose category has no score entry is fatal. -/
def score_entry (categories : String → Option ℚ) (db : String → Option String)
    (mod_source : String) (mod_id raw_name : String) : Except RunExit ModInfo :=
  let name := cleanup_str raw_name
  match db name with
  | some cat =>
    match categories cat with
    | some score => .ok ⟨mod_id, some score, name, mod_source⟩
    | none => .error .fatal_exit
  | none => .ok ⟨mod_id, none, name, mod_source⟩

/-- One iteration of the folder loop (lines 175–228) acting on the
accumulated `mod_details` lookup function. -/
def load_mod_step (categories : String → Option ℚ) (db : String → Option String)
    (steam_detected : Bool) (fetch : String → FetchResult) (mod_source : String)
    (mod_details : String → Option ModInfo) (f : ModFolder) :
    Except RunExit (String → Option ModInfo) :=
  match resolve_name steam_detected fetch f with
  | .error e => .error e
  | .ok none => .ok mod_details
  | .ok (some nm) =>
    match score_entry categories db mod_source f.id nm with
    | .error e => .error e
    | .ok info => .ok (fun k => if k = f.id then some info else mod_details k)

/-- `load_mod_data` (lines 172–229): fold the folder loop over the
directory listing, producing the `mod_details` dict (as its lookup
function) or aborting the run. -/
def load_mod_data (categories : String → Option ℚ) (db : String → Option String)
    (steam_detected : Bool) (fetch : String → FetchResult) (mod_source : String)
    (folders : List ModFolder) : Except RunExit (String → Option ModInfo) :=
  folders.foldlM (load_mod_step categories db steam_detected fetch mod_source)
    (fun _ => none)

/-- Decidable version of "this folder is handled without aborting the
run": its descriptor is missing, or it parses to a name whose category
(if any) has a score, or it is malformed but Steam is available — then
a raising fetch or an error-page title merely skips the mod (the bare
`except` at line 194 also catches the `SystemExit` of the error-page
`fatal_error`), and a normal title is scored, which needs the same
category guard as a parsed name. -/
def folder_recovers (categories : String → Option ℚ) (db : String → Option String)
    (steam_detected : Bool) (fetch : String → FetchResult) (f : ModFolder) : Bool :=
  match f.about with
  | .missing => true
  | .parsed none => false
  | .parsed (some nm) =>
    match db (cleanup_str nm) with
    | some cat => (categories cat).isSome
    | none => true
  | .malformed =>
    steam_detected &&
      match fetch f.id with
      | .fetch_error => true
      | .page title =>
        if str_contains title "Steam Community :: Error" then true
        else
          match db (cleanup_str (py_replace_str title "Steam Workshop :: " "")) with
          | some cat => (categories cat).isSome
          | none => true

/-!
## `save_results` (lines 232–246)

The filesystem is an association list from path to file content (paths
and contents as `List Char`).  `shutil.copy` = read the original, write
the backup; its possible failure (permissions, disk) is the `copy_ok`
oracle; a failure raises, so the error case returns the filesystem
unchanged and the new content is never written.  The timestamp `now` is
a parameter (the code formats `time.localtime` as `%Y%m%d-%H%M`).
-/

/-- `PurePath.with_suffix`: replace the last suffix of the final path
component (a name whose only dot is its first character has no suffix,
so the new suffix is appended). -/
def with_suffix_chars (p suf : List Char) : List Char :=
  let rev := p.reverse
  let ext := rev.takeWhile (fun c => !(c = '.' || c = '/'))
  match rev.drop ext.length with
  | '.' :: r2 =>
    match r2 with
    | [] => p ++ suf
    | c :: _ => if c = '/' then p ++ suf else r2.reverse ++ suf
  | _ => p ++ suf

/-- The backup path of line 234:
`mods_config_file.with_suffix(".backup-" + now + ".xml")`. -/
def backup_path (mods_config_file now : List Char) : List Char :=
  with_suffix_chars mods_config_file (pc ".backup-" ++ now ++ pc ".xml")

/-- `save_results` (lines 232–246) on the association-list filesystem:
copy the original to the backup path, then overwrite the original with
the new document.  A failed copy (missing source or `copy_ok = false`)
raises before the original is opened for writing, so the error case
carries the untouched filesystem. -/
def save_results (copy_ok : Bool) (mods_config_file now new_content : List Char)
    (fs : List (List Char × List Char)) :
    Except (List (List Char × List Char)) (List (List Char × List Char)) :=
  match dict_lookup fs mods_config_file with
  | none => .error fs
  | some orig =>
    if copy_ok then
      .ok (dict_insert (dict_insert fs (backup_path mods_config_file now) orig)
        mods_config_file new_content)
    else .error fs

/-!
## The plain-name fragment for the normaliser's idempotence

`cleanup_garbage_name` is not idempotent (see the counterexample
below); it is the identity — hence idempotent — on names made of ASCII
letters and single interior spaces that do not end in `" Ver"`.
-/

/-- No two adjacent spaces. -/
def no_double_space : List Char → Bool
  | [] => true
  | [_] => true
  | a :: b :: t => !(a = ' ' && b = ' ') && no_double_space (b :: t)

/-- ASCII letter or space (stated on code points, `a`–`z`, `A`–`Z`). -/
def letter_or_space (c : Char) : Bool :=
  (97 ≤ c.toNat && c.toNat ≤ 122) || (65 ≤ c.toNat && c.toNat ≤ 90) || c = ' '

/-- A plain name: ASCII letters and single interior spaces, not ending
in `" Ver"`. -/
def plain_name (s : List Char) : Bool :=
  s.all letter_or_space && no_double_space s &&
    (match s with | [] => true | c :: _ => !(c = ' ')) &&
    (match s.getLast? with | none => true | some c => !(c = ' ')) &&
    !py_endswith s (pc " Ver")

/-- The lookup function of the merged dict
`{**mod_data_local, **mod_data_workshop}` (line 423): the workshop
binding wins when both are present (see the `dict_union` theorem for
the association-list form). -/
def merged_lookup (mod_data_local mod_data_workshop : String → Option ModInfo) :
    String → Option ModInfo :=
  fun mods =>
    match mod_data_workshop mods with
    | some v => some v
    | none => mod_data_local mods

/-- Whether a run step succeeded (did not abort the process). -/
def run_ok {ε α : Type} : Except ε α → Bool
  | .ok _ => true
  | .error _ => false

/-!  Concrete data used by the witness theorems. -/

/-- A timestamp as formatted by `time.strftime("%Y%m%d-%H%M", ...)`. -/
def demo_now : List Char := pc "20260101-1200"

/-- A configuration path, split so that its stem and final character are
visible to `save_results_spec`. -/
def demo_cfg : List Char := (pc "C:/RimWorld/Config/ModsConfi" ++ ['g']) ++ pc ".xml"

/-- A one-file filesystem holding the old configuration document. -/
def demo_fs : List (List Char × List Char) := [(demo_cfg, pc "OLD")]

/-- The filesystem after a successful `save_results` run on `demo_fs`. -/
def demo_fs_after : List (List Char × List Char) :=
  dict_insert (dict_insert demo_fs (backup_path demo_cfg demo_now) (pc "OLD"))
    demo_cfg (pc "NEW")

/-- A local metadata map with one unknown mod. -/
def demo_local : String → Option ModInfo := fun mods =>
  if mods = "m1" then some ⟨"m1", none, "Mod One", "L"⟩ else none

/-- An empty workshop metadata map (Steam disabled). -/
def demo_workshop : String → Option ModInfo := fun _ => none

/-- Two folders that `load_mod_data` must skip without aborting:
one without a descriptor, one malformed whose workshop fetch raises. -/
def demo_folders : List ModFolder :=
  [⟨"m1", .missing⟩, ⟨"m2", .malformed⟩, ⟨"m3", .malformed⟩]

/-- A workshop-page oracle: the fetch for `"m3"` returns an error page,
every other fetch raises. -/
def demo_fetch : String → FetchResult := fun i =>
  if i = "m3" then .page "Steam Community :: Error" else .fetch_error

/-- An empty score table. -/
def demo_categories : String → Option ℚ := fun _ => none

/-- An empty name database. -/
def demo_db : String → Option String := fun _ => none

/-- Two local dict entries, one of which the workshop dict overrides. -/
def demo_dict_local : List (String × ModInfo) :=
  [("m1", ⟨"m1", none, "Mod One", "L"⟩), ("m2", ⟨"m2", none, "Mod Two", "L"⟩)]

/-- A workshop dict entry for the id `"m2"`. -/
def demo_dict_workshop : List (String × ModInfo) :=
  [("m2", ⟨"m2", some 1, "Mod Two", "W"⟩)]

/-!
## Helper lemmas
-/

theorem mem_of_isPrefixOf {sub t : List Char} (h : sub.isPrefixOf t = true) :
    ∀ c ∈ sub, c ∈ t := by
  have h' : sub <+: t := by simpa using h
  exact fun c hc => h'.subset hc

theorem mem_of_isSuffixOf {sub s : List Char} (h : sub.isSuffixOf s = true) :
    ∀ c ∈ sub, c ∈ s := by
  have h' : sub <:+ s := by simpa using h
  exact fun c hc => h'.subset hc

theorem prefix_false_of_not_mem {sub s : List Char} {c0 : Char}
    (hc0 : c0 ∈ sub) (hns : c0 ∉ s) :
    ∀ t, t <:+ s → sub.isPrefixOf t = false := by
  intro t ht
  cases hx : sub.isPrefixOf t with
  | false => rfl
  | true => exact absurd (ht.subset (mem_of_isPrefixOf hx c0 hc0)) hns

theorem py_replace_go_id {sub repl s : List Char}
    (h : ∀ t, t <:+ s → sub.isPrefixOf t = false) :
    ∀ fuel, py_replace_go sub repl fuel s = s := by
  intro fuel
  induction fuel generalizing s with
  | zero => rfl
  | succ n ih =>
    cases s with
    | nil => rfl
    | cons c rest =>
      have hc : sub.isPrefixOf (c :: rest) = false := h _ (List.suffix_refl _)
      simp only [py_replace_go, hc, Bool.false_and, if_neg Bool.false_ne_true]
      have h' : ∀ t, t <:+ rest → sub.isPrefixOf t = false := fun t ht =>
        h t (ht.trans (List.suffix_cons c rest))
      rw [ih h']

theorem py_replace_id_of_not_mem {s sub repl : List Char} {c0 : Char}
    (hc0 : c0 ∈ sub) (hns : c0 ∉ s) : py_replace s sub repl = s :=
  py_replace_go_id (prefix_false_of_not_mem hc0 hns) _

theorem endswith_false_of_not_mem {s sub : List Char} {c0 : Char}
    (hc0 : c0 ∈ sub) (hns : c0 ∉ s) : py_endswith s sub = false := by
  cases hx : sub.isSuffixOf s with
  | false => exact hx
  | true => exact absurd (mem_of_isSuffixOf hx c0 hc0) hns

theorem startswith_false_of_not_mem {s sub : List Char} {c0 : Char}
    (hc0 : c0 ∈ sub) (hns : c0 ∉ s) : py_startswith s sub = false := by
  cases hx : sub.isPrefixOf s with
  | false => exact hx
  | true => exact absurd (mem_of_isPrefixOf hx c0 hc0) hns

/-!
## Association-list dict lemmas and claim C9
-/

theorem dict_lookup_insert {κ α : Type} [DecidableEq κ] (d : List (κ × α)) (k key : κ)
    (v : α) :
    dict_lookup (dict_insert d k v) key = if k = key then some v else dict_lookup d key := by
  induction d with
  | nil => simp [dict_insert, dict_lookup]
  | cons p t ih =>
    by_cases hp : p.1 = k
    · simp only [dict_insert, if_pos hp, dict_lookup]
      by_cases hk : k = key
      · simp [hk]
      · have hpk : ¬ p.1 = key := fun h => hk (hp.symm.trans h)
        simp [hk, hpk]
    · simp only [dict_insert, if_neg hp, dict_lookup]
      by_cases hpk : p.1 = key
      · have : ¬ k = key := fun h => hp (hpk.trans h.symm)
        simp [hpk, this]
      · simp [hpk, ih]

theorem dict_lookup_eq_none_of_not_mem {κ α : Type} [DecidableEq κ]
    {d : List (κ × α)} {key : κ} (h : key ∉ d.map Prod.fst) :
    dict_lookup d key = none := by
  induction d with
  | nil => rfl
  | cons p t ih =>
    simp only [List.map_cons, List.mem_cons] at h
    push_neg at h
    have hpk : ¬ p.1 = key := fun hk => h.1 hk.symm
    simp only [dict_lookup, if_neg hpk]
    exact ih h.2

theorem dict_union_lookup {κ α : Type} [DecidableEq κ] (a b : List (κ × α)) (key : κ)
    (hb : (b.map Prod.fst).Nodup) :
    dict_lookup (dict_union a b) key =
      match dict_lookup b key with
      | some v => some v
      | none => dict_lookup a key := by
  induction b generalizing a with
  | nil => simp [dict_union, dict_lookup]
  | cons p t ih =>
    simp only [List.map_cons, List.nodup_cons] at hb
    have step : dict_union a (p :: t) = dict_union (dict_insert a p.1 p.2) t := rfl
    rw [step, ih _ hb.2]
    by_cases hk : p.1 = key
    · have ht : dict_lookup t key = none :=
        dict_lookup_eq_none_of_not_mem (hk ▸ hb.1)
      simp [ht, dict_lookup, hk, dict_lookup_insert]
    · simp only [dict_lookup, if_neg hk]
      cases htk : dict_lookup t key with
      | some v => rfl
      | none => simp [dict_lookup_insert, hk]

/-- Claim C9 — the merged record mapping
`mod_data_full = {**mod_data_local, **mod_data_workshop}` is
right-biased with workshop second: for every folder ID present in the
workshop dict the merged dict contains the workshop entry, and for an
ID absent from the workshop dict it contains the local entry (present
or absent alike). -/
theorem dict_union_right_bias {α : Type} (a b : List (String × α)) (key : String)
    (hb : (b.map Prod.fst).Nodup) :
    (∀ v, dict_lookup b key = some v → dict_lookup (dict_union a b) key = some v)
    ∧ (dict_lookup b key = none → dict_lookup (dict_union a b) key = dict_lookup a key) := by
  constructor
  · intro v hv
    rw [dict_union_lookup a b key hb, hv]
  · intro hv
    rw [dict_union_lookup a b key hb, hv]

/-- Witness for C9: on concrete local and workshop dicts sharing the id
`"m2"`, the merged dict holds the workshop record for `"m2"` and the
local record for `"m1"`. -/
theorem dict_union_right_bias_witness :
    dict_lookup (dict_union demo_dict_local demo_dict_workshop) "m2"
        = some ⟨"m2", some 1, "Mod Two", "W"⟩
    ∧ dict_lookup (dict_union demo_dict_local demo_dict_workshop) "m1"
        = some ⟨"m1", none, "Mod One", "L"⟩ := by
  constructor
  · exact (dict_union_right_bias demo_dict_local demo_dict_workshop "m2" (by decide)).1
      _ (by decide)
  · rw [(dict_union_right_bias demo_dict_local demo_dict_workshop "m1" (by decide)).2
      (by decide)]
    decide

/-!
## Claim C1 — backup before write in `save_results`
-/

theorem backup_path_eq (stem : List Char) (c : Char) (now : List Char) (hc : c ≠ '/') :
    backup_path ((stem ++ [c]) ++ pc ".xml") now
      = (stem ++ [c]) ++ (pc ".backup-" ++ now ++ pc ".xml") := by
  have hrev : ((stem ++ [c]) ++ pc ".xml").reverse
      = 'l' :: 'm' :: 'x' :: '.' :: (c :: stem.reverse) := by
    simp [pc, List.reverse_append]
  simp only [backup_path, with_suffix_chars, hrev]
  have htake : ('l' :: 'm' :: 'x' :: '.' :: (c :: stem.reverse)).takeWhile
      (fun ch => !(ch = '.' || ch = '/')) = ['l', 'm', 'x'] := rfl
  rw [htake]
  have hdrop : ('l' :: 'm' :: 'x' :: '.' :: (c :: stem.reverse)).drop
      (['l', 'm', 'x'] : List Char).length = '.' :: (c :: stem.reverse) := rfl
  rw [hdrop]
  simp only [if_neg hc]
  simp [pc]

/-- Claim C1 — `save_results` (lines 232–246) first copies the
configuration file to the timestamped backup path
`<name>.backup-<now>.xml` (`with_suffix` replaces the `.xml` suffix of
the stem), and only then overwrites the original: if the copy raises,
the run aborts with the filesystem untouched, and after every
successful run the backup file holds exactly the pre-run content of the
configuration file while the original holds the new document. -/
theorem save_results_spec (copy_ok : Bool) (stem : List Char) (c : Char)
    (now new_content : List Char) (fs fs' : List (List Char × List Char))
    (hc : c ≠ '/') :
    (save_results copy_ok ((stem ++ [c]) ++ pc ".xml") now new_content fs = .error fs' →
      fs' = fs)
    ∧ (save_results copy_ok ((stem ++ [c]) ++ pc ".xml") now new_content fs = .ok fs' →
        copy_ok = true
        ∧ backup_path ((stem ++ [c]) ++ pc ".xml") now
            = (stem ++ [c]) ++ (pc ".backup-" ++ now ++ pc ".xml")
        ∧ backup_path ((stem ++ [c]) ++ pc ".xml") now ≠ (stem ++ [c]) ++ pc ".xml"
        ∧ dict_lookup fs' (backup_path ((stem ++ [c]) ++ pc ".xml") now)
            = dict_lookup fs ((stem ++ [c]) ++ pc ".xml")
        ∧ dict_lookup fs' ((stem ++ [c]) ++ pc ".xml") = some new_content) := by
  have hbp := backup_path_eq stem c now hc
  have hne : backup_path ((stem ++ [c]) ++ pc ".xml") now ≠ (stem ++ [c]) ++ pc ".xml" := by
    rw [hbp]
    intro h
    have := congrArg List.length h
    simp [pc] at this
  constructor
  · intro h
    unfold save_results at h
    split at h
    · injection h with h'
      exact h'.symm
    · split at h
      · exact Except.noConfusion h
      · injection h with h'
        exact h'.symm
  · intro h
    unfold save_results at h
    split at h
    · exact Except.noConfusion h
    · rename_i orig horig
      split at h
      · rename_i hcp
        injection h with h'
        subst h'
        refine ⟨hcp, hbp, hne, ?_, ?_⟩
        · rw [dict_lookup_insert, if_neg (fun hx => hne hx.symm), dict_lookup_insert,
            if_pos rfl, horig]
        · rw [dict_lookup_insert, if_pos rfl]
      · exact Except.noConfusion h

/-- Witness for C1: a successful concrete `save_results` run leaves the
old document at the backup path. -/
theorem save_results_spec_witness :
    dict_lookup demo_fs_after (backup_path demo_cfg demo_now) = some (pc "OLD") := by
  have h := (save_results_spec true (pc "C:/RimWorld/Config/ModsConfi") 'g' demo_now
      (pc "NEW") demo_fs demo_fs_after (by decide)).2 (by rfl)
  have h4 := h.2.2.2.1
  rw [show demo_cfg = (pc "C:/RimWorld/Config/ModsConfi" ++ ['g']) ++ pc ".xml" from rfl]
  rw [h4]
  decide

/-!
## Pipeline lemmas
-/

theorem filterMap_score_cons_some (score_of : String → Option ℚ) (a : String)
    (t : List String) (s : ℚ) (hm : score_of a = some s) :
    List.filterMap (fun mods => (score_of mods).map (fun s => (mods, s))) (a :: t)
      = (a, s) :: List.filterMap (fun mods => (score_of mods).map (fun s => (mods, s))) t := by
  simp [List.filterMap_cons, hm]

theorem filterMap_score_cons_none (score_of : String → Option ℚ) (a : String)
    (t : List String) (hm : score_of a = none) :
    List.filterMap (fun mods => (score_of mods).map (fun s => (mods, s))) (a :: t)
      = List.filterMap (fun mods => (score_of mods).map (fun s => (mods, s))) t := by
  simp [List.filterMap_cons, hm]

theorem filter_none_cons_some (score_of : String → Option ℚ) (a : String)
    (t : List String) (s : ℚ) (hm : score_of a = some s) :
    List.filter (fun mods => (score_of mods).isNone) (a :: t)
      = List.filter (fun mods => (score_of mods).isNone) t := by
  simp [List.filter_cons, hm]

theorem filter_none_cons_none (score_of : String → Option ℚ) (a : String)
    (t : List String) (hm : score_of a = none) :
    List.filter (fun mods => (score_of mods).isNone) (a :: t)
      = a :: List.filter (fun mods => (score_of mods).isNone) t := by
  simp [List.filter_cons, hm]

theorem reconcile_go_eq (score_of : String → Option ℚ) (e : List String) :
    ∀ a1 a2, e.foldl
      (fun acc mods =>
        match score_of mods with
        | some s => (acc.1 ++ [(mods, s)], acc.2)
        | none => (acc.1, acc.2 ++ [mods]))
      (a1, a2)
      = (a1 ++ e.filterMap (fun mods => (score_of mods).map (fun s => (mods, s))),
         a2 ++ e.filter (fun mods => (score_of mods).isNone)) := by
  induction e with
  | nil => intro a1 a2; simp
  | cons mods t ih =>
    intro a1 a2
    cases hm : score_of mods with
    | some s =>
      rw [List.foldl_cons, filterMap_score_cons_some score_of mods t s hm,
        filter_none_cons_some score_of mods t s hm, hm]
      dsimp only
      rw [ih]
      simp
    | none =>
      rw [List.foldl_cons, filterMap_score_cons_none score_of mods t hm,
        filter_none_cons_none score_of mods t hm, hm]
      dsimp only
      rw [ih]
      simp

theorem reconcile_eq (score_of : String → Option ℚ) (e : List String) :
    reconcile score_of e
      = (e.filterMap (fun mods => (score_of mods).map (fun s => (mods, s))),
         e.filter (fun mods => (score_of mods).isNone)) := by
  unfold reconcile
  rw [reconcile_go_eq]
  simp

theorem filterMap_score_fst_sublist (score_of : String → Option ℚ) (e : List String) :
    List.Sublist
      ((e.filterMap (fun mods => (score_of mods).map (fun s => (mods, s)))).map Prod.fst) e := by
  induction e with
  | nil => simp
  | cons mods t ih =>
    cases hm : score_of mods with
    | some s =>
      rw [filterMap_score_cons_some score_of mods t s hm, List.map_cons]
      exact ih.cons₂ mods
    | none =>
      rw [filterMap_score_cons_none score_of mods t hm]
      exact ih.cons mods

theorem partition_perm (score_of : String → Option ℚ) (e : List String) :
    ((e.filterMap (fun mods => (score_of mods).map (fun s => (mods, s)))).map Prod.fst
      ++ e.filter (fun mods => (score_of mods).isNone)).Perm e := by
  induction e with
  | nil => simp
  | cons a t ih =>
    cases hm : score_of a with
    | some s =>
      rw [filterMap_score_cons_some score_of a t s hm,
        filter_none_cons_some score_of a t s hm, List.map_cons, List.cons_append]
      exact ih.cons a
    | none =>
      rw [filterMap_score_cons_none score_of a t hm,
        filter_none_cons_none score_of a t hm]
      exact List.perm_middle.trans (ih.cons a)

theorem reconcile_count (score_of : String → Option ℚ) (e : List String) (mods : String) :
    ((reconcile score_of e).1.map Prod.fst).count mods
        + (reconcile score_of e).2.count mods
      = e.count mods := by
  rw [reconcile_eq, ← List.count_append]
  exact (partition_perm score_of e).count_eq mods

theorem write_known_eq (nl : List (String × ℚ)) :
    write_known nl = (nl.map Prod.fst).filter (fun s => !(s == "")) := by
  have go : ∀ (l : List (String × ℚ)) (acc : List String),
      l.foldl (fun acc mods => if mods.1 = "" then acc else acc ++ [mods.1]) acc
        = acc ++ (l.map Prod.fst).filter (fun s => !(s == "")) := by
    intro l
    induction l with
    | nil => intro acc; simp
    | cons p t ih =>
      intro acc
      by_cases hp : p.1 = ""
      · have hf : List.filter (fun s => !(s == "")) (p.1 :: t.map Prod.fst)
            = List.filter (fun s => !(s == "")) (t.map Prod.fst) := by
          simp [List.filter_cons, hp]
        rw [List.foldl_cons, if_pos hp, List.map_cons, hf, ih]
      · have hf : List.filter (fun s => !(s == "")) (p.1 :: t.map Prod.fst)
            = p.1 :: List.filter (fun s => !(s == "")) (t.map Prod.fst) := by
          simp [List.filter_cons, hp]
        rw [List.foldl_cons, if_neg hp, List.map_cons, hf, ih]
        simp
  unfold write_known
  rw [go]
  simp

theorem write_unknown_eq (dont_remove_unknown : Bool) (ua : List String) :
    write_unknown dont_remove_unknown ua
      = if dont_remove_unknown then ua.filter (fun s => !(s == "")) else [] := by
  have go : ∀ (l : List String) (acc : List String),
      l.foldl (fun acc mods => if mods = "" then acc else acc ++ [mods]) acc
        = acc ++ l.filter (fun s => !(s == "")) := by
    intro l
    induction l with
    | nil => intro acc; simp
    | cons a t ih =>
      intro acc
      by_cases ha : a = ""
      · have hf : List.filter (fun s => !(s == "")) (a :: t)
            = List.filter (fun s => !(s == "")) t := by
          simp [List.filter_cons, ha]
        rw [List.foldl_cons, if_pos ha, hf, ih]
      · have hf : List.filter (fun s => !(s == "")) (a :: t)
            = a :: List.filter (fun s => !(s == "")) t := by
          simp [List.filter_cons, ha]
        rw [List.foldl_cons, if_neg ha, hf, ih]
        simp
  unfold write_unknown
  cases dont_remove_unknown with
  | false => simp
  | true =>
    cases ua with
    | nil => simp
    | cons a t =>
      simp only [List.isEmpty_cons, Bool.not_false, Bool.and_self, if_pos]
      rw [go]
      simp

theorem with_core_mem (mods_enabled_list : List String) :
    "Core" ∈ with_core mods_enabled_list := by
  unfold with_core
  split
  · assumption
  · exact List.mem_append_right _ (List.mem_singleton.mpr rfl)

/-!
## Claims C2 and C5 — sorting and reconciliation
-/

theorem score_le_trans : ∀ (a b c : String × ℚ),
    score_le a b → score_le b c → score_le a c := by
  intro a b c hab hbc
  simp only [score_le, decide_eq_true_eq] at *
  exact le_trans hab hbc

theorem score_le_total : ∀ (a b : String × ℚ), score_le a b || score_le b a := by
  intro a b
  simp only [score_le, Bool.or_eq_true, decide_eq_true_eq]
  exact le_total a.2 b.2

theorem mergeSort_score_filter (l : List (String × ℚ)) (q : ℚ) :
    (l.mergeSort score_le).filter (fun x => x.2 == q) = l.filter (fun x => x.2 == q) := by
  have hperm : (l.mergeSort score_le).Perm l := List.mergeSort_perm l score_le
  have hmemq : ∀ x ∈ l.filter (fun x => x.2 == q), x.2 = q := by
    intro x hx
    have := List.of_mem_filter hx
    simpa using this
  have hpw : (l.filter (fun x => x.2 == q)).Pairwise (fun a b => score_le a b) := by
    apply List.pairwise_of_forall_mem_list
    intro a ha b hb
    simp [score_le, hmemq a ha, hmemq b hb]
  have hc_sub : List.Sublist (l.filter (fun x => x.2 == q)) (l.mergeSort score_le) :=
    List.sublist_mergeSort score_le_trans score_le_total hpw (List.filter_sublist l)
  have hfil : (l.filter (fun x => x.2 == q)).filter (fun x => x.2 == q)
      = l.filter (fun x => x.2 == q) :=
    List.filter_eq_self.mpr (fun a ha => @List.of_mem_filter _ (fun x => x.2 == q) a _ ha)
  have hfil_sub : List.Sublist (l.filter (fun x => x.2 == q))
      ((l.mergeSort score_le).filter (fun x => x.2 == q)) := by
    have h := hc_sub.filter (fun x => x.2 == q)
    rwa [hfil] at h
  have hlen : (l.filter (fun x => x.2 == q)).length
      = ((l.mergeSort score_le).filter (fun x => x.2 == q)).length :=
    ((hperm.filter _).length_eq).symm
  exact (hfil_sub.eq_of_length hlen).symm

/-- Claim C2 — line 445's `sorted(mods_data_active, key=itemgetter(1))`
is the stable ascending sort of ActiveKnown by score: the output is a
permutation of ActiveKnown, sorted by score, entries of any fixed score
keep their ActiveKnown (hence EnabledList) relative order, and
ActiveKnown itself lists ids in EnabledList order. -/
theorem new_list_sorted_stable (mod_data_full : String → Option ModInfo)
    (mods_enabled_list : List String) :
    (new_list (reconcile (known_score mod_data_full) (with_core mods_enabled_list)).1).Perm
        (reconcile (known_score mod_data_full) (with_core mods_enabled_list)).1
    ∧ (new_list (reconcile (known_score mod_data_full) (with_core mods_enabled_list)).1).Pairwise
        (fun a b => a.2 ≤ b.2)
    ∧ (∀ q : ℚ,
        (new_list (reconcile (known_score mod_data_full) (with_core mods_enabled_list)).1).filter
            (fun x => x.2 == q)
          = ((reconcile (known_score mod_data_full) (with_core mods_enabled_list)).1).filter
            (fun x => x.2 == q))
    ∧ List.Sublist
        (((reconcile (known_score mod_data_full) (with_core mods_enabled_list)).1).map Prod.fst)
        (with_core mods_enabled_list) := by
  refine ⟨?_, ?_, ?_, ?_⟩
  · exact List.mergeSort_perm _ score_le
  · exact (List.sorted_mergeSort score_le_trans score_le_total _).imp
      (fun h => by simpa [score_le] using h)
  · intro q
    exact mergeSort_score_filter _ q
  · rw [reconcile_eq]
    exact filterMap_score_fst_sublist _ _

/-- Claim C5 — reconciliation (lines 432–441) partitions the enabled
list: ActiveKnown is exactly the ids whose record has a present score
(paired with it), ActiveUnknown exactly those whose lookup has no score
or no record; every occurrence lands in exactly one side (counts add
up) and both sides preserve EnabledList relative order. -/
theorem reconcile_partition (mod_data_full : String → Option ModInfo) (e : List String) :
    (reconcile (known_score mod_data_full) e).1
        = e.filterMap (fun mods => (known_score mod_data_full mods).map (fun s => (mods, s)))
    ∧ (reconcile (known_score mod_data_full) e).2
        = e.filter (fun mods => (known_score mod_data_full mods).isNone)
    ∧ (∀ mods, ((reconcile (known_score mod_data_full) e).1.map Prod.fst).count mods
          + (reconcile (known_score mod_data_full) e).2.count mods = e.count mods)
    ∧ List.Sublist ((reconcile (known_score mod_data_full) e).1.map Prod.fst) e
    ∧ List.Sublist (reconcile (known_score mod_data_full) e).2 e := by
  refine ⟨?_, ?_, ?_, ?_, ?_⟩
  · rw [reconcile_eq]
  · rw [reconcile_eq]
  · exact reconcile_count _ e
  · rw [reconcile_eq]
    exact filterMap_score_fst_sublist _ _
  · rw [reconcile_eq]
    exact List.filter_sublist e

/-!
## Claims C3, C4 and C10 — the written active-mods section
-/

/-- Claim C3 (amended) — `"Core"` is appended to the enabled list
before reconciliation (lines 394–395), and the final output contains
`"Core"` whenever Core resolves to a known record with a score or the
keep-unknown flag is set.  (As stated, the claim fails when Core is
unknown and the flag is off; see the counterexample.) -/
theorem final_active_core_mem (mod_data_full : String → Option ModInfo)
    (dont_remove_unknown : Bool) (mods_enabled_list : List String)
    (h : (known_score mod_data_full "Core").isSome = true ∨ dont_remove_unknown = true) :
    "Core" ∈ final_active mod_data_full dont_remove_unknown mods_enabled_list := by
  simp only [final_active]
  by_cases hk : (known_score mod_data_full "Core").isSome = true
  · obtain ⟨q, hq⟩ := Option.isSome_iff_exists.mp hk
    apply List.mem_append_left
    rw [write_known_eq]
    apply List.mem_filter.mpr
    refine ⟨?_, by decide⟩
    apply List.mem_map.mpr
    refine ⟨("Core", q), ?_, rfl⟩
    have hmem : ("Core", q)
        ∈ (reconcile (known_score mod_data_full) (with_core mods_enabled_list)).1 := by
      rw [reconcile_eq]
      apply List.mem_filterMap.mpr
      exact ⟨"Core", with_core_mem _, by simp [hq]⟩
    unfold new_list
    exact ((List.mergeSort_perm _ score_le).mem_iff).mpr hmem
  · have hflag : dont_remove_unknown = true := h.resolve_left hk
    have hnone : known_score mod_data_full "Core" = none := by
      cases hq : known_score mod_data_full "Core" with
      | none => rfl
      | some q => exact absurd (by simp [hq]) hk
    apply List.mem_append_right
    rw [write_unknown_eq, if_pos hflag]
    apply List.mem_filter.mpr
    refine ⟨?_, by decide⟩
    rw [reconcile_eq]
    apply List.mem_filter.mpr
    exact ⟨with_core_mem _, by simp [hnone]⟩

/-- Witness for C3: with a record map that scores Core, the final
output contains Core even though the input enabled list omits it. -/
theorem final_active_core_mem_witness :
    "Core" ∈ final_active core_only_map false ["ModA"] :=
  final_active_core_mem core_only_map false ["ModA"] (Or.inl (by decide))

/-- Counterexample to C3 as stated: when Core resolves to no known
record and the keep-unknown flag is off, the final output is empty, so
it does not contain `"Core"`. -/
theorem final_active_core_counterexample :
    ¬ ("Core" ∈ final_active (fun _ => none) false []) := by
  have hrec : reconcile (known_score (fun _ => none)) (with_core []) = ([], ["Core"]) := by
    decide
  have hfin : final_active (fun _ => none) false [] = [] := by
    simp only [final_active]
    rw [hrec]
    simp only [new_list, List.mergeSort_nil]
    decide
  rw [hfin]
  exact List.not_mem_nil _

/-- Claim C4 (amended) — with the keep-unknown flag on, the final
output is the written known list followed by the ActiveUnknown ids in
original order with empty ids skipped; with the flag off no
ActiveUnknown id appears in the output.  The spec's concrete example
holds as stated.  (The unamended claim appends *all* ActiveUnknown ids;
see the counterexample with an empty-string id.) -/
theorem final_active_unknown_spec (mod_data_full : String → Option ModInfo)
    (mods_enabled_list : List String) :
    (final_active mod_data_full true mods_enabled_list
        = write_known (new_list
            (reconcile (known_score mod_data_full) (with_core mods_enabled_list)).1)
          ++ ((reconcile (known_score mod_data_full) (with_core mods_enabled_list)).2).filter
            (fun s => !(s == "")))
    ∧ (∀ mods, mods ∈ (reconcile (known_score mod_data_full) (with_core mods_enabled_list)).2 →
        mods ∉ final_active mod_data_full false mods_enabled_list)
    ∧ final_active core_only_map false ["Unknown1", "Core"] = ["Core"]
    ∧ final_active core_only_map true ["Unknown1", "Core"] = ["Core", "Unknown1"] := by
  have hrec : reconcile (known_score core_only_map) (with_core ["Unknown1", "Core"])
      = ([("Core", 0)], ["Unknown1"]) := by decide
  refine ⟨?_, ?_, ?_, ?_⟩
  · simp only [final_active]
    rw [write_unknown_eq]
    simp
  · intro mods hmem hfin
    have hnone : known_score mod_data_full mods = none := by
      rw [reconcile_eq] at hmem
      have := List.of_mem_filter hmem
      simpa using this
    simp only [final_active] at hfin
    have hfalse : write_unknown false
        (reconcile (known_score mod_data_full) (with_core mods_enabled_list)).2 = [] := by
      rw [write_unknown_eq]
      simp
    rw [hfalse, List.append_nil, write_known_eq] at hfin
    have hfin2 := List.mem_of_mem_filter hfin
    obtain ⟨p, hp, hpe⟩ := List.mem_map.mp hfin2
    have hp2 : p ∈ (reconcile (known_score mod_data_full) (with_core mods_enabled_list)).1 := by
      unfold new_list at hp
      exact ((List.mergeSort_perm _ score_le).mem_iff).mp hp
    rw [reconcile_eq] at hp2
    obtain ⟨a, _, ha⟩ := List.mem_filterMap.mp hp2
    cases hka : known_score mod_data_full a with
    | none => rw [hka] at ha; simp at ha
    | some s =>
      rw [hka] at ha
      simp only [Option.map_some', Option.some.injEq] at ha
      subst ha
      have hae : a = mods := hpe
      rw [hae] at hka
      rw [hka] at hnone
      exact Option.noConfusion hnone
  · simp only [final_active]
    rw [hrec]
    simp only [new_list, List.mergeSort_singleton]
    decide
  · simp only [final_active]
    rw [hrec]
    simp only [new_list, List.mergeSort_singleton]
    decide

/-- Witness for C4: the unknown id `"Unknown1"` is dropped from the
final output when the keep-unknown flag is off. -/
theorem final_active_unknown_spec_witness :
    "Unknown1" ∉ final_active core_only_map false ["Unknown1", "Core"] :=
  (final_active_unknown_spec core_only_map ["Unknown1", "Core"]).2.1 "Unknown1" (by decide)

/-- Counterexample to C4 as stated: with the keep-unknown flag on and
an empty-string enabled entry (necessarily unknown), the written output
is not the sorted known list followed by *all* ActiveUnknown ids — the
empty id is skipped. -/
theorem final_active_unknown_counterexample :
    final_active core_only_map true ["", "Core"]
      ≠ (new_list (reconcile (known_score core_only_map) (with_core ["", "Core"])).1).map
          Prod.fst
        ++ (reconcile (known_score core_only_map) (with_core ["", "Core"])).2 := by
  have hrec : reconcile (known_score core_only_map) (with_core ["", "Core"])
      = ([("Core", 0)], [""]) := by decide
  intro h
  simp only [final_active] at h
  rw [hrec] at h
  simp only [new_list, List.mergeSort_singleton] at h
  exact absurd h (by decide)

/-- Claim C10 — in the non-reset write path every empty-string id,
known or unknown, is skipped: the written children are exactly the
non-empty ids of the sorted known list followed by the non-empty
ActiveUnknown ids (when the flag keeps them), and the empty string is
never written. -/
theorem write_path_skips_empty (mod_data_full : String → Option ModInfo)
    (dont_remove_unknown : Bool) (mods_enabled_list : List String) :
    "" ∉ final_active mod_data_full dont_remove_unknown mods_enabled_list
    ∧ final_active mod_data_full dont_remove_unknown mods_enabled_list
      = ((new_list (reconcile (known_score mod_data_full) (with_core mods_enabled_list)).1).map
            Prod.fst
          ++ (if dont_remove_unknown
                && !((reconcile (known_score mod_data_full)
                    (with_core mods_enabled_list)).2).isEmpty
              then (reconcile (known_score mod_data_full) (with_core mods_enabled_list)).2
              else [])).filter (fun s => !(s == "")) := by
  have heq : final_active mod_data_full dont_remove_unknown mods_enabled_list
      = ((new_list (reconcile (known_score mod_data_full) (with_core mods_enabled_list)).1).map
            Prod.fst
          ++ (if dont_remove_unknown
                && !((reconcile (known_score mod_data_full)
                    (with_core mods_enabled_list)).2).isEmpty
              then (reconcile (known_score mod_data_full) (with_core mods_enabled_list)).2
              else [])).filter (fun s => !(s == "")) := by
    simp only [final_active]
    rw [List.filter_append, write_known_eq, write_unknown_eq]
    congr 1
    cases hflag : dont_remove_unknown with
    | false => simp
    | true =>
      cases hua : (reconcile (known_score mod_data_full) (with_core mods_enabled_list)).2 with
      | nil => simp
      | cons a t => simp
  refine ⟨?_, heq⟩
  rw [heq]
  intro h
  have := List.of_mem_filter h
  simp at this

/-- Witness for C10: at a concrete run with an empty-string enabled
entry, the written children equal the claimed filtered concatenation. -/
theorem write_path_skips_empty_witness :
    "" ∉ final_active core_only_map true ["", "Core"] :=
  (write_path_skips_empty core_only_map true ["", "Core"]).1

/-!
## Claim C8 — unknown-report location hints
-/

/-- Claim C8 — in the unknown-mods report (lines 516–525), every
locally-sourced entry's location hint is the literal redacted
placeholder joined with the mod id (the real local directory is not an
input of the computation), and every workshop-sourced entry's hint is
the public Steam workshop URL derived from the mod id.  Workshop
entries only exist when Steam is enabled, because `main` only loads the
workshop directory in that case (lines 399–411). -/
theorem unknown_report_location (mod_data_local mod_data_workshop : String → Option ModInfo)
    (disable_steam : Bool) (mods : String) (e : ModInfo)
    (hL : ∀ i x, mod_data_local i = some x → x.source = "L")
    (hW : ∀ i x, mod_data_workshop i = some x → x.source = "W")
    (hds : disable_steam = true → ∀ i, mod_data_workshop i = none)
    (he : unknown_entry (merged_lookup mod_data_local mod_data_workshop) mods = some e) :
    (e.source = "L" → mod_loc disable_steam e = "<RimWorld install directory>/Mods/" ++ e.id)
    ∧ (e.source = "W" →
        mod_loc disable_steam e
          = "https://steamcommunity.com/sharedfiles/filedetails/?id=" ++ e.id) := by
  have hme : merged_lookup mod_data_local mod_data_workshop mods = some e := by
    unfold unknown_entry at he
    cases hm : merged_lookup mod_data_local mod_data_workshop mods with
    | none => rw [hm] at he; exact Option.noConfusion he
    | some x =>
      rw [hm] at he
      dsimp only at he
      cases hs : x.score.isSome with
      | true =>
        rw [hs] at he
        simp at he
      | false =>
        rw [hs] at he
        simp only [Bool.false_eq_true, if_false] at he
        simp at he
        rw [he]
  constructor
  · intro hsrc
    unfold mod_loc
    rw [if_pos hsrc]
  · intro hsrc
    have hds' : disable_steam = false := by
      cases hd : disable_steam with
      | false => rfl
      | true =>
        unfold merged_lookup at hme
        rw [hds hd mods] at hme
        have := hL mods e hme
        rw [this] at hsrc
        exact absurd hsrc (by decide)
    unfold mod_loc
    rw [if_neg (by rw [hsrc]; decide), if_pos hds']

/-- Witness for C8: a locally-sourced unknown mod gets the redacted
placeholder hint. -/
theorem unknown_report_location_witness :
    mod_loc true ⟨"m1", none, "Mod One", "L"⟩
      = "<RimWorld install directory>/Mods/m1" := by
  have h := (unknown_report_location demo_local demo_workshop true "m1"
      ⟨"m1", none, "Mod One", "L"⟩
      (fun i x hx => by
        by_cases hi : i = "m1"
        · subst hi
          unfold demo_local at hx
          rw [if_pos rfl] at hx
          injection hx with hx'
          rw [← hx']
        · unfold demo_local at hx
          rw [if_neg hi] at hx
          exact Option.noConfusion hx)
      (fun i x hx => Option.noConfusion hx)
      (fun _ i => rfl)
      (by rfl)).1 rfl
  rw [h]
  rfl

/-!
## Claim C7 — per-mod error recovery in `load_mod_data`
-/

/-- If the category guard of `folder_recovers` holds of a raw name,
scoring that name cannot abort (the only fatal case in `score_entry` is
a known name whose category has no score). -/
theorem score_entry_ok_of_guard (categories : String → Option ℚ)
    (db : String → Option String) (mod_source mod_id nm : String)
    (h : (match db (cleanup_str nm) with
          | some cat => (categories cat).isSome
          | none => true) = true) :
    ∃ info, score_entry categories db mod_source mod_id nm = .ok info := by
  cases hdb : db (cleanup_str nm) with
  | none =>
    refine ⟨⟨mod_id, none, cleanup_str nm, mod_source⟩, ?_⟩
    unfold score_entry
    dsimp only
    rw [hdb]
  | some cat =>
    rw [hdb] at h
    dsimp only at h
    obtain ⟨sc, hsc⟩ := Option.isSome_iff_exists.mp h
    refine ⟨⟨mod_id, some sc, cleanup_str nm, mod_source⟩, ?_⟩
    unfold score_entry
    dsimp only
    rw [hdb]
    dsimp only
    rw [hsc]

/-- Claim C7 (amended) — per-mod problems that `load_mod_data` recovers
from locally: folders with a missing descriptor are skipped, and — when
Steam is available — folders with a malformed descriptor are always
handled without terminating the run: a raising fetch skips the mod; an
error-page title calls `fatal_error`, but its `SystemExit` is raised
inside the `try` of line 189 and caught by the bare `except` at line
194, so the mod is skipped and the loop continues; a normal title is
scored like a parsed name.  A directory of such folders (plus normally
resolving ones) loads successfully, and every entry of the result comes
from a folder whose display name was resolved.  (As stated, the claim
fails: a malformed descriptor with no Steam installation aborts the
whole run via `fatal_error` and `sys.exit(1)` at lines 199–201, which
sit outside any `try` — see the counterexample.) -/
theorem load_mod_data_recovers (categories : String → Option ℚ) (db : String → Option String)
    (steam_detected : Bool) (fetch : String → FetchResult) (mod_source : String)
    (folders : List ModFolder)
    (h : folders.all (folder_recovers categories db steam_detected fetch) = true) :
    ∃ m, load_mod_data categories db steam_detected fetch mod_source folders = .ok m
      ∧ ∀ mods e, m mods = some e →
          ∃ f, f ∈ folders ∧ f.id = mods
            ∧ ∃ nm, resolve_name steam_detected fetch f = .ok (some nm) := by
  have main : ∀ (fs : List ModFolder) (m0 : String → Option ModInfo),
      fs.all (folder_recovers categories db steam_detected fetch) = true →
      ∃ m, fs.foldlM (load_mod_step categories db steam_detected fetch mod_source) m0 = .ok m
        ∧ ∀ mods e, m mods = some e →
            m0 mods = some e
            ∨ ∃ f, f ∈ fs ∧ f.id = mods
                ∧ ∃ nm, resolve_name steam_detected fetch f = .ok (some nm) := by
    intro fs
    induction fs with
    | nil =>
      intro m0 _
      exact ⟨m0, rfl, fun mods e he => Or.inl he⟩
    | cons f t ih =>
      intro m0 hall
      rw [List.all_cons, Bool.and_eq_true] at hall
      obtain ⟨hf, ht⟩ := hall
      unfold folder_recovers at hf
      have hres : resolve_name steam_detected fetch f = .ok none
          ∨ ∃ nm, resolve_name steam_detected fetch f = .ok (some nm)
              ∧ ∃ info, score_entry categories db mod_source f.id nm = .ok info := by
        unfold resolve_name
        cases hab : f.about with
        | missing => exact Or.inl rfl
        | malformed =>
          rw [hab] at hf
          dsimp only at hf ⊢
          rw [Bool.and_eq_true] at hf
          have hf2 := hf.2
          rw [if_pos hf.1]
          cases hfe : fetch f.id with
          | fetch_error => exact Or.inl rfl
          | page title =>
            rw [hfe] at hf2
            dsimp only at hf2 ⊢
            by_cases hct : str_contains title "Steam Community :: Error" = true
            · rw [if_pos hct]
              exact Or.inl rfl
            · rw [if_neg hct]
              rw [if_neg hct] at hf2
              exact Or.inr ⟨_, rfl,
                score_entry_ok_of_guard categories db mod_source f.id _ hf2⟩
        | parsed nm? =>
          cases nm? with
          | none =>
            rw [hab] at hf
            dsimp only at hf
            exact absurd hf Bool.false_ne_true
          | some nm =>
            rw [hab] at hf
            dsimp only at hf ⊢
            exact Or.inr ⟨nm, rfl,
              score_entry_ok_of_guard categories db mod_source f.id nm hf⟩
      have hstep : ∃ m1, load_mod_step categories db steam_detected fetch mod_source m0 f
            = .ok m1
          ∧ ∀ mods e, m1 mods = some e →
              m0 mods = some e
              ∨ (f.id = mods
                  ∧ ∃ nm, resolve_name steam_detected fetch f = .ok (some nm)) := by
        rcases hres with hnone | ⟨nm, hsome, info, hinfo⟩
        · refine ⟨m0, ?_, fun mods e he => Or.inl he⟩
          unfold load_mod_step
          rw [hnone]
        · refine ⟨fun k => if k = f.id then some info else m0 k, ?_, ?_⟩
          · unfold load_mod_step
            rw [hsome]
            dsimp only
            rw [hinfo]
          · intro mods e he
            dsimp only at he
            by_cases hk : mods = f.id
            · exact Or.inr ⟨hk.symm, nm, hsome⟩
            · rw [if_neg hk] at he
              exact Or.inl he
      obtain ⟨m1, hm1, hprop1⟩ := hstep
      obtain ⟨m, hm, hprop⟩ := ih m1 ht
      refine ⟨m, ?_, ?_⟩
      · rw [List.foldlM_cons, hm1]
        exact hm
      · intro mods e he
        rcases hprop mods e he with h0 | ⟨g, hg, hgid, hgres⟩
        · rcases hprop1 mods e h0 with h1 | ⟨hid, hres1⟩
          · exact Or.inl h1
          · exact Or.inr ⟨f, List.mem_cons_self f t, hid, hres1⟩
        · exact Or.inr ⟨g, List.mem_cons_of_mem f hg, hgid, hgres⟩
  obtain ⟨m, hm, hprop⟩ := main folders (fun _ => none) h
  refine ⟨m, hm, ?_⟩
  intro mods e he
  rcases hprop mods e he with h0 | hrest
  · exact Option.noConfusion h0
  · exact hrest

/-- Witness for C7: a directory with one missing descriptor, one
malformed descriptor whose fetch raises, and one malformed descriptor
whose fetch returns an error page loads successfully (Steam present). -/
theorem load_mod_data_recovers_witness :
    run_ok (load_mod_data demo_categories demo_db true demo_fetch "L" demo_folders) = true := by
  obtain ⟨m, hm, _⟩ := load_mod_data_recovers demo_categories demo_db true demo_fetch "L"
    demo_folders (by decide)
  rw [hm]
  rfl

/-- Counterexample to C7 as stated: a single malformed descriptor with
no Steam installation does not get skipped — `load_mod_data` aborts the
whole run via `fatal_error` and `sys.exit(1)` (lines 199–201, outside
any `try`). -/
theorem load_mod_data_abort_counterexample :
    load_mod_data demo_categories demo_db false demo_fetch "L" [⟨"m1", .malformed⟩]
      = .error .fatal_exit := rfl

/-!
## Claim C6 — lemmas on plain names

`cleanup_garbage_name` is the identity on names made of ASCII letters
and single interior spaces (no leading/trailing space, not ending in
`" Ver"`): no regex alternative can match without a digit, bracket or
dot, and none of the rewrite steps fires.
-/

theorem letter_or_space_cases (c : Char) (h : letter_or_space c = true) :
    ((97 ≤ c.toNat ∧ c.toNat ≤ 122) ∨ (65 ≤ c.toNat ∧ c.toNat ≤ 90)) ∨ c = ' ' := by
  simpa [letter_or_space, Bool.or_eq_true, Bool.and_eq_true, decide_eq_true_eq] using h

theorem isDigit_eq_decide (c : Char) :
    c.isDigit = (decide (48 ≤ c.toNat) && decide (c.toNat ≤ 57)) := by
  simp only [Char.isDigit]
  congr 1

theorem isDigit_false_of_los (c : Char) (h : letter_or_space c = true) :
    c.isDigit = false := by
  rcases letter_or_space_cases c h with (⟨h1, h2⟩ | ⟨h1, h2⟩) | h1
  · rw [isDigit_eq_decide]
    simp only [Bool.and_eq_false_iff, decide_eq_false_iff_not]
    right
    omega
  · rw [isDigit_eq_decide]
    simp only [Bool.and_eq_false_iff, decide_eq_false_iff_not]
    right
    omega
  · subst h1
    decide

theorem los_ne (c c0 : Char) (h : letter_or_space c = true)
    (h0 : letter_or_space c0 = false) : c ≠ c0 := by
  intro he
  rw [he, h0] at h
  exact Bool.noConfusion h

theorem not_mem_of_los {s : List Char} (hall : ∀ c ∈ s, letter_or_space c = true)
    (c0 : Char) (h0 : letter_or_space c0 = false) : c0 ∉ s := by
  intro hm
  rw [hall c0 hm] at h0
  exact Bool.noConfusion h0

theorem ne_digit_of_los (c c0 : Char) (h : letter_or_space c = true)
    (h0 : c0.isDigit = true) : c ≠ c0 := by
  intro he
  rw [← he] at h0
  rw [isDigit_false_of_los c h] at h0
  exact Bool.noConfusion h0

theorem py_space_eq_space (c : Char) (h : letter_or_space c = true)
    (hsp : py_is_space c = true) : c = ' ' := by
  have hd : ((((c = ' ' ∨ c = '\t') ∨ c = '\n') ∨ c = '\r') ∨ c = '\x0b') ∨ c = '\x0c' := by
    simpa [py_is_space, Bool.or_eq_true, decide_eq_true_eq] using hsp
  rcases hd with ((((h1 | h1) | h1) | h1) | h1) | h1
  · exact h1
  all_goals (subst h1; rw [show letter_or_space _ = false from by decide] at h; cases h)

theorem los_not_space (c : Char) (h : letter_or_space c = true) (hne : c ≠ ' ') :
    py_is_space c = false := by
  cases hx : py_is_space c with
  | false => rfl
  | true => exact absurd (py_space_eq_space c h hx) hne

theorem m_digits1_none {s : List Char} (hall : ∀ c ∈ s, letter_or_space c = true) :
    m_digits1 s = none := by
  cases s with
  | nil => rfl
  | cons c t =>
    dsimp only [m_digits1]
    rw [isDigit_false_of_los c (hall c (List.mem_cons_self c t))]
    rfl

theorem grp_tag_none {s : List Char} (hall : ∀ c ∈ s, letter_or_space c = true) :
    grp_tag s = none := by
  cases s with
  | nil => rfl
  | cons c t =>
    dsimp only [grp_tag]
    rw [if_neg (ne_digit_of_los c '1' (hall c (List.mem_cons_self c t)) (by decide))]
    by_cases hab : c = 'A' ∨ c = 'B'
    · rw [if_pos hab]
      exact m_digits1_none (fun d hd => hall d (List.mem_cons_of_mem c hd))
    · rw [if_neg hab]

theorem alt_version_body_none {s : List Char} (hall : ∀ c ∈ s, letter_or_space c = true) :
    alt_version_body s = none := by
  dsimp only [alt_version_body]
  rw [m_digits1_none hall]

theorem alt_version_none {s : List Char} (hall : ∀ c ∈ s, letter_or_space c = true) :
    alt_version s = none := by
  cases s with
  | nil => rfl
  | cons c t =>
    have hbody_t : alt_version_body t = none :=
      alt_version_body_none (fun d hd => hall d (List.mem_cons_of_mem c hd))
    have hbody_s : alt_version_body (c :: t) = none := alt_version_body_none hall
    dsimp only [alt_version]
    by_cases hv : c = 'v' ∨ c = 'V'
    · rw [if_pos hv, hbody_t]
      exact hbody_s
    · rw [if_neg hv]
      exact hbody_s

theorem alt_bracket_none {s : List Char} (openc closec : Char)
    (hall : ∀ c ∈ s, letter_or_space c = true)
    (hop : letter_or_space openc = false) :
    alt_bracket openc closec s = none := by
  cases s with
  | nil => rfl
  | cons c t =>
    dsimp only [alt_bracket]
    rw [if_neg (los_ne c openc (hall c (List.mem_cons_self c t)) hop)]

theorem alt_for_tag_none {s : List Char} (hall : ∀ c ∈ s, letter_or_space c = true) :
    alt_for_tag s = none := by
  have hs : grp_tag s = none := grp_tag_none hall
  dsimp only [alt_for_tag]
  by_cases hp : (pc "for ").isPrefixOf s = true
  · rw [if_pos hp]
    rw [grp_tag_none (fun d hd => hall d (List.mem_of_mem_drop hd))]
    exact hs
  · rw [if_neg hp]
    cases s with
    | nil => rfl
    | cons c t =>
      show (if c = 'R' then
          match grp_tag t with
          | some u => some u
          | none => grp_tag (c :: t)
        else grp_tag (c :: t)) = none
      by_cases hr : c = 'R'
      · rw [if_pos hr]
        rw [grp_tag_none (fun d hd => hall d (List.mem_cons_of_mem c hd))]
        exact hs
      · rw [if_neg hr]
        exact hs

theorem alt_dot19_none {s : List Char} (hall : ∀ c ∈ s, letter_or_space c = true) :
    alt_dot19 s = none := by
  cases s with
  | nil => rfl
  | cons c s1 =>
    cases s1 with
    | nil => rfl
    | cons d s2 =>
      cases s2 with
      | nil => rfl
      | cons e t =>
        dsimp only [alt_dot19]
        rw [if_neg]
        intro hcon
        exact los_ne c '.' (hall c (List.mem_cons_self _ _)) (by decide) hcon.1

theorem match_garbage_none {s : List Char} (hall : ∀ c ∈ s, letter_or_space c = true) :
    match_garbage s = none := by
  unfold match_garbage
  rw [alt_version_none hall, alt_bracket_none '[' ']' hall (by decide),
    alt_bracket_none '(' ')' hall (by decide), alt_for_tag_none hall]
  exact alt_dot19_none hall

theorem regex_sub_go_id {s : List Char} (hall : ∀ c ∈ s, letter_or_space c = true) :
    ∀ fuel, regex_sub_go fuel s = s := by
  intro fuel
  induction fuel generalizing s with
  | zero => rfl
  | succ n ih =>
    cases s with
    | nil => rfl
    | cons c rest =>
      dsimp only [regex_sub_go]
      rw [match_garbage_none hall]
      exact congrArg (List.cons c) (ih (fun d hd => hall d (List.mem_cons_of_mem c hd)))

theorem regex_sub_id {s : List Char} (hall : ∀ c ∈ s, letter_or_space c = true) :
    regex_sub s = s :=
  regex_sub_go_id hall _

theorem nds_tail {a : Char} {l : List Char} (h : no_double_space (a :: l) = true) :
    no_double_space l = true := by
  cases l with
  | nil => rfl
  | cons b t =>
    dsimp only [no_double_space] at h
    rw [Bool.and_eq_true] at h
    exact h.2

theorem nds_suffix {t s : List Char} (ht : t <:+ s) (h : no_double_space s = true) :
    no_double_space t = true := by
  induction s with
  | nil =>
    rw [List.suffix_nil.mp ht]
    rfl
  | cons a s' ih =>
    rcases List.suffix_cons_iff.mp ht with he | ht'
    · rw [he]
      exact h
    · exact ih ht' (nds_tail h)

theorem double_space_prefix_false {s : List Char} (hnds : no_double_space s = true) :
    ∀ t, t <:+ s → (pc "  ").isPrefixOf t = false := by
  intro t ht
  cases hx : (pc "  ").isPrefixOf t with
  | false => rfl
  | true =>
    exfalso
    have h' : pc "  " <+: t := by simpa using hx
    obtain ⟨u, hu⟩ := h'
    have hnt := nds_suffix ht hnds
    rw [← hu] at hnt
    simp [no_double_space] at hnt

theorem py_strip_id {s : List Char}
    (h1 : ∀ c, s.head? = some c → py_is_space c = false)
    (h2 : ∀ c, s.getLast? = some c → py_is_space c = false) :
    py_strip s = s := by
  unfold py_strip
  have hd : s.dropWhile py_is_space = s := by
    cases s with
    | nil => rfl
    | cons c t =>
      rw [List.dropWhile_cons, h1 c rfl]
      simp
  rw [hd]
  have hd2 : s.reverse.dropWhile py_is_space = s.reverse := by
    cases hs : s.reverse with
    | nil => rfl
    | cons c t =>
      have hlast : s.getLast? = some c := by
        rw [← List.head?_reverse, hs]
        rfl
      rw [List.dropWhile_cons, h2 c hlast]
      simp
  rw [hd2, List.reverse_reverse]

theorem py_split_go_nil : ∀ n, py_split_go n [] = [] := by
  intro n
  cases n <;> rfl

theorem suffix_getLast? {l s : List Char} (h : l <:+ s) (hne : l ≠ []) :
    l.getLast? = s.getLast? := by
  obtain ⟨pre, hpre⟩ := h
  rw [← hpre, List.getLast?_append]
  cases hl : l.getLast? with
  | none => exact absurd (List.getLast?_eq_none_iff.mp hl) hne
  | some x => rfl

theorem join_split_go : ∀ (fuel : Nat) (s : List Char), s.length ≤ fuel →
    (∀ c ∈ s, letter_or_space c = true) → no_double_space s = true →
    (∀ c, s.head? = some c → c ≠ ' ') → (∀ c, s.getLast? = some c → c ≠ ' ') →
    py_join_space (py_split_go fuel s) = s := by
  intro fuel
  induction fuel using Nat.strong_induction_on with
  | _ fuel ih =>
    cases fuel with
    | zero =>
      intro s hlen _ _ _ _
      rw [List.eq_nil_of_length_eq_zero (Nat.le_zero.mp hlen)]
      rfl
    | succ n =>
      intro s hlen hall hnds hhead hlast
      cases s with
      | nil => rfl
      | cons c t =>
        have hcl : letter_or_space c = true := hall c (List.mem_cons_self c t)
        have hcs : py_is_space c = false := los_not_space c hcl (hhead c rfl)
        have hsplit1 : py_split_go (n + 1) (c :: t)
            = (c :: t.takeWhile (fun d => !py_is_space d))
              :: py_split_go n (t.dropWhile (fun d => !py_is_space d)) := by
          dsimp only [py_split_go]
          rw [hcs]
          simp
        rw [hsplit1]
        have htw : t.takeWhile (fun d => !py_is_space d)
            ++ t.dropWhile (fun d => !py_is_space d) = t :=
          List.takeWhile_append_dropWhile _ _
        cases hr : t.dropWhile (fun d => !py_is_space d) with
        | nil =>
          rw [py_split_go_nil]
          show c :: t.takeWhile (fun d => !py_is_space d) = c :: t
          rw [hr, List.append_nil] at htw
          rw [htw]
        | cons d r' =>
          have hd_space : py_is_space d = true := by
            have hh := List.head?_dropWhile_not (fun d => !py_is_space d) t
            rw [hr] at hh
            simpa using hh
          have hrsuf : (d :: r') <:+ t := by
            rw [← hr]
            exact List.dropWhile_suffix _
          have hdmem : d ∈ t := hrsuf.subset (List.mem_cons_self d r')
          have hd' : d = ' ' :=
            py_space_eq_space d (hall d (List.mem_cons_of_mem c hdmem)) hd_space
          cases r' with
          | nil =>
            exfalso
            have hlast_eq : (c :: t).getLast? = some d := by
              have hsuf : (d :: ([] : List Char)) <:+ (c :: t) :=
                hrsuf.trans (List.suffix_cons c t)
              rw [← suffix_getLast? hsuf (by simp)]
              rfl
            exact hlast d hlast_eq hd'
          | cons e r'' =>
            have hesuf : (d :: e :: r'') <:+ (c :: t) := hrsuf.trans (List.suffix_cons c t)
            have hemem : e ∈ t :=
              hrsuf.subset (List.mem_cons_of_mem d (List.mem_cons_self e r''))
            have hel : letter_or_space e = true := hall e (List.mem_cons_of_mem c hemem)
            have he_space : py_is_space e = false := by
              cases hx : py_is_space e with
              | false => rfl
              | true =>
                exfalso
                have he' : e = ' ' := py_space_eq_space e hel hx
                have hnt := nds_suffix hesuf hnds
                rw [hd', he'] at hnt
                simp [no_double_space] at hnt
            have hlen_t : t.length ≤ n := by
              simp only [List.length_cons] at hlen
              omega
            have hlen_dr : (d :: e :: r'').length ≤ t.length := by
              rw [← hr]
              exact (List.dropWhile_suffix _).length_le
            cases n with
            | zero =>
              exfalso
              simp only [List.length_cons] at hlen_dr
              omega
            | succ n' =>
              have hlen_r : (e :: r'').length ≤ n' := by
                simp only [List.length_cons] at hlen_dr hlen_t ⊢
                omega
              have hsplit2 : py_split_go (n' + 1) (d :: e :: r'')
                  = py_split_go n' (e :: r'') := by
                dsimp only [py_split_go]
                rw [hd']
                simp [py_is_space]
              rw [hsplit2]
              have hall_r : ∀ x ∈ (e :: r''), letter_or_space x = true := by
                intro x hx
                exact hall x (List.mem_cons_of_mem c
                  (hrsuf.subset (List.mem_cons_of_mem d hx)))
              have hnds_r : no_double_space (e :: r'') = true :=
                nds_suffix ((List.suffix_cons d _).trans hesuf) hnds
              have hhead_r : ∀ x, (e :: r'').head? = some x → x ≠ ' ' := by
                intro x hx
                injection hx with hx'
                rw [← hx']
                intro he'
                rw [he'] at he_space
                simp [py_is_space] at he_space
              have hlast_r : ∀ x, (e :: r'').getLast? = some x → x ≠ ' ' := by
                intro x hx
                apply hlast x
                rw [← suffix_getLast? ((List.suffix_cons d _).trans hesuf) (by simp)]
                exact hx
              have hjoin := ih n' (by omega) (e :: r'') hlen_r hall_r hnds_r hhead_r hlast_r
              cases hn' : n' with
              | zero =>
                exfalso
                rw [hn'] at hlen_r
                simp at hlen_r
              | succ n'' =>
                have hsplit3 : py_split_go (n'' + 1) (e :: r'')
                    = (e :: r''.takeWhile (fun x => !py_is_space x))
                      :: py_split_go n'' (r''.dropWhile (fun x => !py_is_space x)) := by
                  dsimp only [py_split_go]
                  rw [he_space]
                  simp
                rw [hn'] at hjoin
                rw [hsplit3]
                show (c :: t.takeWhile (fun d => !py_is_space d))
                    ++ ' ' :: py_join_space
                      ((e :: r''.takeWhile (fun x => !py_is_space x))
                        :: py_split_go n'' (r''.dropWhile (fun x => !py_is_space x)))
                  = c :: t
                rw [← hsplit3, hjoin]
                have ht2 : t = t.takeWhile (fun d => !py_is_space d) ++ ' ' :: e :: r'' := by
                  rw [← hd', ← hr]
                  exact htw.symm
                conv_rhs => rw [ht2]
                simp

theorem cleanup_plain_fixed {s : List Char} (h : plain_name s = true) :
    cleanup_garbage_name s = s := by
  have hparts := h
  unfold plain_name at hparts
  simp only [Bool.and_eq_true] at hparts
  obtain ⟨⟨⟨⟨hA, hB⟩, hC⟩, hD⟩, hE⟩ := hparts
  have hall : ∀ c ∈ s, letter_or_space c = true := by
    intro c hc
    exact List.all_eq_true.mp hA c hc
  have h_not_mem : ∀ c0 : Char, letter_or_space c0 = false → c0 ∉ s :=
    fun c0 h0 => not_mem_of_los hall c0 h0
  have hhead : ∀ c, s.head? = some c → c ≠ ' ' := by
    intro c hc
    cases s with
    | nil => exact absurd hc (by simp)
    | cons a t =>
      injection hc with hc'
      subst hc'
      simpa using hC
  have hlast : ∀ c, s.getLast? = some c → c ≠ ' ' := by
    intro c hc
    rw [hc] at hD
    simpa using hD
  have hheadsp : ∀ c, s.head? = some c → py_is_space c = false := by
    intro c hc
    have hmem : c ∈ s := by
      cases s with
      | nil => exact absurd hc (by simp)
      | cons a t =>
        injection hc with hc'
        subst hc'
        exact List.mem_cons_self _ _
    exact los_not_space c (hall c hmem) (hhead c hc)
  have hlastsp : ∀ c, s.getLast? = some c → py_is_space c = false := by
    intro c hc
    have hmem : c ∈ s := by
      have hne : s ≠ [] := by
        intro hnil
        rw [hnil] at hc
        exact Option.noConfusion hc
      rw [List.getLast?_eq_getLast s hne] at hc
      injection hc with hc'
      rw [← hc']
      exact List.getLast_mem hne
    exact los_not_space c (hall c hmem) (hlast c hc)
  have hstrip : py_strip s = s := py_strip_id hheadsp hlastsp
  have hreg : regex_sub s = s := regex_sub_id hall
  have hrep1 : py_replace s (pc " - ") (pc ": ") = s :=
    py_replace_id_of_not_mem (by decide) (h_not_mem '-' (by decide))
  have hrep2 : py_replace s (pc " : ") (pc ": ") = s :=
    py_replace_id_of_not_mem (by decide) (h_not_mem ':' (by decide))
  have hrep3 : py_replace s (pc "  ") (pc " ") = s :=
    py_replace_go_id (double_space_prefix_false hB) _
  have hjs : py_strip (py_join_space (py_split s)) = s := by
    unfold py_split
    rw [join_split_go s.length s (le_refl _) hall hB hhead hlast]
    exact hstrip
  have hrepA : py_replace s (pc "()") [] = s :=
    py_replace_id_of_not_mem (by decide) (h_not_mem '(' (by decide))
  have hrepB : py_replace s (pc "[]") [] = s :=
    py_replace_id_of_not_mem (by decide) (h_not_mem '[' (by decide))
  have hrepC : py_replace s (pc "(v. )") [] = s :=
    py_replace_id_of_not_mem (by decide) (h_not_mem '(' (by decide))
  have hver : py_endswith s (pc " Ver") = false := by
    cases hx : py_endswith s (pc " Ver") with
    | false => rfl
    | true => rw [hx] at hE; exact absurd hE (by decide)
  have hpercent : py_endswith s (pc " %") = false :=
    endswith_false_of_not_mem (by decide) (h_not_mem '%' (by decide))
  have hbra : py_replace s (pc "[ ") (pc "[") = s :=
    py_replace_id_of_not_mem (by decide) (h_not_mem '[' (by decide))
  have hb19 : py_replace s (pc "( & b19)") [] = s :=
    py_replace_id_of_not_mem (by decide) (h_not_mem '(' (by decide))
  have h19 : py_replace s (pc "[19]") [] = s :=
    py_replace_id_of_not_mem (by decide) (h_not_mem '[' (by decide))
  have hfv : py_replace s (pc "[/] Version") [] = s :=
    py_replace_id_of_not_mem (by decide) (h_not_mem '[' (by decide))
  have hcolon : py_endswith s (pc ":") = false :=
    endswith_false_of_not_mem (by decide) (h_not_mem ':' (by decide))
  have hcs : py_startswith s (pc ": ") = false :=
    startswith_false_of_not_mem (by decide) (h_not_mem ':' (by decide))
  have hdash : py_startswith s (pc "-") = false :=
    startswith_false_of_not_mem (by decide) (h_not_mem '-' (by decide))
  simp only [cleanup_garbage_name]
  simp only [hreg, hrep1, hrep2, hrep3, hjs, hrepA, hrepB, hrepC, hver, hpercent, hbra,
    hb19, h19, hfv, hcolon, hcs, hdash, hstrip, Bool.false_eq_true, if_false, ite_self]

/-- Claim C6 (amended) — `cleanup_garbage_name` is not idempotent on
all strings (see the counterexample: overlapping `" - "` separators
survive one pass and are rewritten by the next), but it is idempotent
on plain names — ASCII letters and single interior spaces, not ending
in `" Ver"` — because such names are fixed points of the cleanup. -/
theorem cleanup_garbage_name_idempotent_plain (s : List Char) (h : plain_name s = true) :
    cleanup_garbage_name (cleanup_garbage_name s) = cleanup_garbage_name s := by
  rw [cleanup_plain_fixed h]
  exact cleanup_plain_fixed h

/-- Witness for C6: a concrete plain name, idempotent under cleanup. -/
theorem cleanup_garbage_name_idempotent_plain_witness :
    plain_name (pc "Hello World") = true
    ∧ cleanup_garbage_name (cleanup_garbage_name (pc "Hello World"))
        = cleanup_garbage_name (pc "Hello World") :=
  ⟨by decide, cleanup_garbage_name_idempotent_plain (pc "Hello World") (by decide)⟩

/-- Counterexample to C6 as stated: `"a - - b"` has two overlapping
`" - "` occurrences; one application rewrites only the first
(`"a: - b"`), a second application rewrites the leftover (`"a:: b"`),
so applying the normalizer twice differs from applying it once. -/
theorem cleanup_garbage_name_not_idempotent :
    cleanup_garbage_name (cleanup_garbage_name (pc "a - - b"))
      ≠ cleanup_garbage_name (pc "a - - b") := by decide
